import Mathlib

/-!
# Verification of the veravote anonymous-voting crypto core

This file is a shallow embedding, in Lean 4, of the TypeScript sources of the
veravote library (ElGamal on the Jubjub prime-order subgroup, voter Merkle
tree, voter tokens, vote vectors, and the election orchestrator), together
with theorems settling the specified properties.

Modelling conventions:
* machine `bigint` values become `Nat` (with explicit `% 2 ^ 32` where the
  SHA-256 compression function works on 32-bit words);
* curve points are modelled by their discrete logarithms in `ZMod ell`,
  where `ell` is the order of the prime-order subgroup generated by the
  base point `G` of the external curve library: every point the code ever
  manipulates lies in that cyclic subgroup (public keys, ciphertext halves
  and their sums), scalar multiplication becomes multiplication in
  `ZMod ell`, point addition becomes addition, and the canonical hex
  encoding - injective on points, with a distinct encoding for the
  identity - becomes the identity function on `ZMod ell`;
* the external SHA-256 primitive (from @noble/hashes) is implemented
  concretely below (FIPS 180-4) on UTF-8 byte lists, returning the digest
  read as a big-endian natural number, exactly the value of
  `BigInt("0x" + bytesToHex(hash))` in the source;
* fallible code returns `Option` or `Except String`;
* the external Semaphore proof system is opaque: a ballot carries the
  boolean outcome of `verifyProof` on its proof, and encryption randomness
  (`curve.utils.randomSecretKey()` reduced mod `ell`) is an explicit
  parameter.
-/

/-! ## SHA-256 (FIPS 180-4), on byte lists, all arithmetic in `Nat` -/

/-- Truncate to a 32-bit word. -/
def w32 (x : Nat) : Nat := x % 4294967296

/-- Right rotation of a 32-bit word by `k` bits. -/
def rotr32 (k x : Nat) : Nat := w32 ((x >>> k) ||| (x <<< (32 - k)))

/-- SHA-256 Ch function. -/
def shaCh (x y z : Nat) : Nat := (x &&& y) ^^^ ((x ^^^ 4294967295) &&& z)

/-- SHA-256 Maj function. -/
def shaMaj (x y z : Nat) : Nat := (x &&& y) ^^^ (x &&& z) ^^^ (y &&& z)

/-- SHA-256 Sigma-0 (uppercase). -/
def shaBigS0 (x : Nat) : Nat := rotr32 2 x ^^^ rotr32 13 x ^^^ rotr32 22 x

/-- SHA-256 Sigma-1 (uppercase). -/
def shaBigS1 (x : Nat) : Nat := rotr32 6 x ^^^ rotr32 11 x ^^^ rotr32 25 x

/-- SHA-256 sigma-0 (lowercase). -/
def shaSmallS0 (x : Nat) : Nat := rotr32 7 x ^^^ rotr32 18 x ^^^ (x >>> 3)

/-- SHA-256 sigma-1 (lowercase). -/
def shaSmallS1 (x : Nat) : Nat := rotr32 17 x ^^^ rotr32 19 x ^^^ (x >>> 10)

/-- SHA-256 round constants (first 32 bits of the fractional parts of the
cube roots of the first 64 primes). -/
def shaK : List Nat :=
  [1116352408, 1899447441, 3049323471, 3921009573, 961987163, 1508970993, 2453635748, 2870763221,
   3624381080, 310598401, 607225278, 1426881987, 1925078388, 2162078206, 2614888103, 3248222580,
   3835390401, 4022224774, 264347078, 604807628, 770255983, 1249150122, 1555081692, 1996064986,
   2554220882, 2821834349, 2952996808, 3210313671, 3336571891, 3584528711, 113926993, 338241895,
   666307205, 773529912, 1294757372, 1396182291, 1695183700, 1986661051, 2177026350, 2456956037,
   2730485921, 2820302411, 3259730800, 3345764771, 3516065817, 3600352804, 4094571909, 275423344,
   430227734, 506948616, 659060556, 883997877, 958139571, 1322822218, 1537002063, 1747873779,
   1955562222, 2024104815, 2227730452, 2361852424, 2428436474, 2756734187, 3204031479, 3329325298]

/-- SHA-256 initial hash value (first 32 bits of the fractional parts of the
square roots of the first 8 primes). -/
def shaH0 : List Nat :=
  [1779033703, 3144134277, 1013904242, 2773480762, 1359893119, 2600822924, 528734635, 1541459225]

/-- Extend a 16-word message block, appending `k` more schedule words. -/
def shaExtend : List Nat → Nat → List Nat
  | w, 0 => w
  | w, k + 1 =>
    let t := w.length
    let nw := w32 (shaSmallS1 (w.getD (t - 2) 0) + w.getD (t - 7) 0 +
      shaSmallS0 (w.getD (t - 15) 0) + w.getD (t - 16) 0)
    shaExtend (w ++ [nw]) k

/-- One round of the SHA-256 compression function on the 8-word state. -/
def shaRound (st : List Nat) (kt wt : Nat) : List Nat :=
  match st with
  | [a, b, c, d, e, f, g, h] =>
    let t1 := w32 (h + shaBigS1 e + shaCh e f g + kt + wt)
    let t2 := w32 (shaBigS0 a + shaMaj a b c)
    [w32 (t1 + t2), a, b, c, w32 (d + t1), e, f, g]
  | st => st

/-- Process one 16-word block, updating the 8-word chaining state. -/
def shaProcessBlock (h : List Nat) (block : List Nat) : List Nat :=
  let w := shaExtend block 48
  let st := (shaK.zip w).foldl (fun st kw => shaRound st kw.1 kw.2) h
  (h.zip st).map fun p => w32 (p.1 + p.2)

/-- Pad a byte message per FIPS 180-4: append `0x80`, zero bytes, and the
64-bit big-endian bit length, reaching a multiple of 64 bytes. -/
def shaPad (msg : List Nat) : List Nat :=
  let bitLen := 8 * msg.length
  let z := (119 - msg.length % 64) % 64
  msg ++ [128] ++ List.replicate z 0 ++
    ((List.range 8).map fun i => (bitLen >>> (8 * (7 - i))) % 256)

/-- Split a byte list into 64-byte blocks (fuel-based structural recursion;
the fuel `l.length` always suffices since each step consumes 64 bytes). -/
def shaBlocksAux : Nat → List Nat → List (List Nat)
  | 0, _ => []
  | _, [] => []
  | fuel + 1, a :: rest => ((a :: rest).take 64) :: shaBlocksAux fuel ((a :: rest).drop 64)

/-- Split a byte list into 64-byte blocks. -/
def shaBlocks (l : List Nat) : List (List Nat) := shaBlocksAux l.length l

/-- Read a 64-byte block as 16 big-endian 32-bit words. -/
def shaBlockWords (b : List Nat) : List Nat :=
  (List.range 16).map fun i =>
    (b.getD (4 * i) 0) * 16777216 + (b.getD (4 * i + 1) 0) * 65536 +
    (b.getD (4 * i + 2) 0) * 256 + b.getD (4 * i + 3) 0

/-- SHA-256 digest of a byte list, returned as the big-endian 256-bit
natural number, i.e. the value `BigInt("0x" + bytesToHex(sha256(bytes)))`
computed by the TypeScript sources. -/
def sha256Bytes (msg : List Nat) : Nat :=
  let final := (shaBlocks (shaPad msg)).foldl
    (fun h blk => shaProcessBlock h (shaBlockWords blk)) shaH0
  final.foldl (fun acc wd => acc * 4294967296 + wd) 0

/-- UTF-8 encoding of a single Unicode code point, as byte values. -/
def utf8EncodeChar (n : Nat) : List Nat :=
  if n < 128 then [n]
  else if n < 2048 then [192 ||| (n >>> 6), 128 ||| (n &&& 63)]
  else if n < 65536 then
    [224 ||| (n >>> 12), 128 ||| ((n >>> 6) &&& 63), 128 ||| (n &&& 63)]
  else
    [240 ||| (n >>> 18), 128 ||| ((n >>> 12) &&& 63),
     128 ||| ((n >>> 6) &&& 63), 128 ||| (n &&& 63)]

/-- UTF-8 bytes of a string: the model of `new TextEncoder().encode(s)`. -/
def utf8Encode (s : String) : List Nat :=
  (s.data.map fun c => utf8EncodeChar c.toNat).flatten

/-- SHA-256 of a string (UTF-8 encoded), as a natural number: the model of
`BigInt("0x" + bytesToHex(sha256(new TextEncoder().encode(s))))`. -/
def sha256Str (s : String) : Nat := sha256Bytes (utf8Encode s)

/-- Known-answer test: SHA-256 of the empty string (FIPS test vector). -/
theorem sha256Str_empty :
    sha256Str "" =
      102987336249554097029535212322581322789799900648198034993379397001115665086549 := by
  decide

/-- Known-answer test: SHA-256 of "abc" (FIPS test vector). -/
theorem sha256Str_abc :
    sha256Str "abc" =
      84342368487090800366523834928142263660104883695016514377462985829716817089965 := by
  decide

/-! ## Curve group model

The source uses the `jubjub` curve from @noble/curves: `G = curve.Point.BASE`
generates a cyclic subgroup of prime order `curve.CURVE.n`.  Every point the
library manipulates is a scalar multiple of `G`, so we model points by their
discrete logarithm: `Point := ZMod ellOrder`, with `G = 1`, point addition as
addition, `P.multiply(k)` as `k * P`, and `Point.ZERO` (the identity) as `0`.
The canonical hex encoding is injective with a distinct identity encoding,
hence equality of encodings is equality in `ZMod ellOrder`. -/

/-- The order of the prime-order subgroup of Jubjub (`curve.CURVE.n`). -/
def ellOrder : ℕ :=
  6554484396890773809930967563523245729705921265872317281365359162392183254199

instance : NeZero ellOrder := ⟨by norm_num [ellOrder]⟩

instance : Fact (1 < ellOrder) := ⟨by norm_num [ellOrder]⟩

/-- A point of the prime-order subgroup, identified by its discrete log. -/
abbrev Point := ZMod ellOrder

/-- The base point `curve.Point.BASE`, i.e. discrete log 1. -/
def G : Point := 1

/-- `MAX_VOTES = 10000`: the build-time bound of the DLOG table. -/
def MAX_VOTES : Nat := 10000

/-! ## ElGamal module (src/core/ElGamal.ts) -/

/-- `ElGamalPublicKey { h : string }`: a hex-encoded point, modelled by the
point itself. -/
structure ElGamalPublicKey where
  h : Point
deriving DecidableEq

/-- `ElGamalPrivateKey { x : bigint }` with `x` reduced mod `curve.CURVE.n`. -/
structure ElGamalPrivateKey where
  x : ZMod ellOrder
deriving DecidableEq

/-- `ElGamalKeyPair`: the constructor stores the private key and computes
`publicKey.h = G.multiply(x)`. -/
structure ElGamalKeyPair where
  privateKey : ElGamalPrivateKey
deriving DecidableEq

/-- The public key computed in the `ElGamalKeyPair` constructor:
`h = G.multiply(privateKey.x)`. -/
def ElGamalKeyPair.publicKey (kp : ElGamalKeyPair) : ElGamalPublicKey :=
  ⟨kp.privateKey.x * G⟩

/-- `ElGamalKeyPair.fromPassword`: `x = BigInt("0x" + hex(sha256(password)))
% curve.CURVE.n`; the `Nat → ZMod ellOrder` cast is exactly that reduction. -/
def ElGamalKeyPair.fromPassword (password : String) : ElGamalKeyPair :=
  ⟨⟨(sha256Str password : ZMod ellOrder)⟩⟩

/-- `ElGamalCiphertext`: a pair of hex-encoded points `(c1, c2)`. -/
structure ElGamalCiphertext where
  c1 : Point
  c2 : Point
deriving DecidableEq

/-- Lookup in the precomputed DLOG table.  `DLOG_CACHE` maps the hex encoding
of `i·G` to `i` for every `0 ≤ i ≤ MAX_VOTES` (the identity point mapping
to 0).  Since `i ↦ i·G` is injective below `ellOrder` and the hex encoding is
injective, looking up a point `p` succeeds exactly when `p = i·G` for some
`i ≤ MAX_VOTES`, i.e. when `p.val ≤ MAX_VOTES`, returning that `i = p.val`. -/
def dlogLookup (p : Point) : Option Nat :=
  if p.val ≤ MAX_VOTES then some p.val else none

/-- `ElGamalKeyPair.decrypt`: compute `m = c2 - x·c1` and look it up in the
DLOG table; the `throw` on a missed lookup becomes `none`. -/
def ElGamalKeyPair.decrypt (kp : ElGamalKeyPair) (ciphertext : ElGamalCiphertext) :
    Option Nat :=
  dlogLookup (ciphertext.c2 - kp.privateKey.x * ciphertext.c1)

/-- The successful body of `ElGamalCiphertext.encrypt`, with the CSPRNG
ephemeral key `r` (`randomSecretKey()` as a big-endian integer) passed
explicitly: `c1 = G.multiply(r mod n)`, `c2 = h.multiply(r mod n) + M` where
`M` is the identity point for `message = 0` and `G.multiply(message)`
otherwise - both equal `message * G` in the discrete-log model. -/
def ElGamalCiphertext.encryptCore (message : Nat) (publicKey : ElGamalPublicKey)
    (r : Nat) : ElGamalCiphertext :=
  let rBigInt : ZMod ellOrder := (r : ZMod ellOrder)
  ⟨rBigInt * G, rBigInt * publicKey.h + (message : ZMod ellOrder) * G⟩

/-- `ElGamalCiphertext.encrypt`: fails (`throw`) when the message is out of
range `[0, MAX_VOTES]`.  Messages are modelled as `Nat`, so the source check
`message < 0n` cannot fire and only the upper bound remains. -/
def ElGamalCiphertext.encrypt (message : Nat) (publicKey : ElGamalPublicKey)
    (r : Nat) : Option ElGamalCiphertext :=
  if MAX_VOTES < message then none
  else some (ElGamalCiphertext.encryptCore message publicKey r)

/-- `ElGamalCiphertext.add`: componentwise point addition
`(this.c1 + other.c1, this.c2 + other.c2)`. -/
def ElGamalCiphertext.add (a b : ElGamalCiphertext) : ElGamalCiphertext :=
  ⟨a.c1 + b.c1, a.c2 + b.c2⟩

/-- `ElGamalCiphertext.aggregate`: throws on an empty array, otherwise
`ciphertexts.reduce((acc, ct) => acc.add(ct))`, i.e. a left fold of `add`
seeded with the first element. -/
def ElGamalCiphertext.aggregate : List ElGamalCiphertext → Option ElGamalCiphertext
  | [] => none
  | c :: cs => some (cs.foldl ElGamalCiphertext.add c)

/-- `ct` is an encryption of `m` under `pk`: some choice of CSPRNG output
makes `encrypt` return it. -/
def Encrypts (pk : ElGamalPublicKey) (ct : ElGamalCiphertext) (m : Nat) : Prop :=
  ∃ r : Nat, ElGamalCiphertext.encrypt m pk r = some ct

/-! ## Vote vectors (src/core/Vote.ts) -/

/-- The vote-vector construction loop of `Vote.cast` (the Semaphore proof and
receipt attached afterwards do not alter the ciphertext list): for each
candidate id in `candidateOrder`, encrypt 1 if it equals the selected id and
0 otherwise, with fresh randomness per position (`rs`, one entry per
position). -/
def Vote.castVector (selectedCandidateId : String) (candidateOrder : List String)
    (publicKey : ElGamalPublicKey) (rs : List Nat) : List ElGamalCiphertext :=
  (candidateOrder.zip rs).map fun p =>
    ElGamalCiphertext.encryptCore (if p.1 = selectedCandidateId then 1 else 0) publicKey p.2

/-! ## ElGamal correctness lemmas -/

/-- Structural form of a ciphertext produced by the encryption body:
`(rB·G, rB·h + m·G)` for some reduced randomness `rB`. -/
def RawEnc (h : Point) (ct : ElGamalCiphertext) (m : Nat) : Prop :=
  ∃ rB : ZMod ellOrder, ct = ⟨rB * G, rB * h + (m : ZMod ellOrder) * G⟩

theorem encrypts_iff (pk : ElGamalPublicKey) (ct : ElGamalCiphertext) (m : Nat) :
    Encrypts pk ct m ↔ m ≤ MAX_VOTES ∧ RawEnc pk.h ct m := by
  constructor
  · rintro ⟨r, hr⟩
    unfold ElGamalCiphertext.encrypt at hr
    by_cases hm : MAX_VOTES < m
    · simp [hm] at hr
    · refine ⟨by omega, (r : ZMod ellOrder), ?_⟩
      simp [hm] at hr
      simp [← hr, ElGamalCiphertext.encryptCore]
  · rintro ⟨hm, rB, rfl⟩
    refine ⟨rB.val, ?_⟩
    unfold ElGamalCiphertext.encrypt
    rw [if_neg (by omega)]
    simp [ElGamalCiphertext.encryptCore, ZMod.natCast_rightInverse rB]

theorem rawEnc_add {h : Point} {a b : ElGamalCiphertext} {ma mb : Nat}
    (ha : RawEnc h a ma) (hb : RawEnc h b mb) :
    RawEnc h (a.add b) (ma + mb) := by
  obtain ⟨r1, rfl⟩ := ha
  obtain ⟨r2, rfl⟩ := hb
  refine ⟨r1 + r2, ?_⟩
  simp only [ElGamalCiphertext.add]
  congr 1
  · ring
  · push_cast
    ring

theorem rawEnc_foldl {h : Point} {cs : List ElGamalCiphertext} {ms : List Nat}
    (henc : List.Forall₂ (RawEnc h) cs ms) :
    ∀ c m0, RawEnc h c m0 → RawEnc h (cs.foldl ElGamalCiphertext.add c) (m0 + ms.sum) := by
  induction henc with
  | nil => intro c m0 hc; simpa using hc
  | cons hab htl ih =>
    intro c m0 hc
    simp only [List.foldl_cons, List.sum_cons]
    rw [← Nat.add_assoc]
    exact ih _ _ (rawEnc_add hc hab)

theorem rawEnc_decrypt {x : ZMod ellOrder} {ct : ElGamalCiphertext} {M : Nat}
    (hM : M ≤ MAX_VOTES) (hraw : RawEnc (x * G) ct M) :
    (ElGamalKeyPair.mk ⟨x⟩).decrypt ct = some M := by
  obtain ⟨rB, rfl⟩ := hraw
  unfold ElGamalKeyPair.decrypt dlogLookup
  have hpt : rB * (x * G) + (M : ZMod ellOrder) * G - x * (rB * G) = (M : ZMod ellOrder) := by
    simp [G]; ring
  have hlt : M < ellOrder := by
    have h1 : MAX_VOTES < ellOrder := by norm_num [MAX_VOTES, ellOrder]
    omega
  rw [hpt, ZMod.val_cast_of_lt hlt, if_pos hM]

theorem rawEnc_message_eq {h : Point} {ct : ElGamalCiphertext} {m1 m2 : Nat}
    (h1 : RawEnc h ct m1) (h2 : RawEnc h ct m2)
    (hb1 : m1 ≤ MAX_VOTES) (hb2 : m2 ≤ MAX_VOTES) : m1 = m2 := by
  obtain ⟨r1, e1⟩ := h1
  obtain ⟨r2, e2⟩ := h2
  rw [e1] at e2
  have hc1 := congrArg ElGamalCiphertext.c1 e2
  have hc2 := congrArg ElGamalCiphertext.c2 e2
  simp only [G, mul_one] at hc1 hc2
  subst hc1
  have hmm : ((m1 : ZMod ellOrder)) = (m2 : ZMod ellOrder) := by
    have := add_left_cancel hc2
    simpa using this
  have hlt : MAX_VOTES < ellOrder := by norm_num [MAX_VOTES, ellOrder]
  have := congrArg ZMod.val hmm
  rwa [ZMod.val_cast_of_lt (by omega), ZMod.val_cast_of_lt (by omega)] at this

/-- C3: for every message `m` with `0 ≤ m ≤ MAX_VOTES` (the lower bound is
inherent to `Nat`), every keypair `(x, pk)` with `pk = g^x` (as computed by
the `ElGamalKeyPair` constructor), and every choice of encryption
randomness `r`, encryption succeeds and decryption with the matching private
key returns `m`. -/
theorem elgamal_decrypt_encrypt (m : Nat) (x : ZMod ellOrder) (r : Nat)
    (hm : m ≤ MAX_VOTES) :
    ∃ ct, ElGamalCiphertext.encrypt m (ElGamalKeyPair.mk ⟨x⟩).publicKey r = some ct ∧
      (ElGamalKeyPair.mk ⟨x⟩).decrypt ct = some m := by
  refine ⟨ElGamalCiphertext.encryptCore m (ElGamalKeyPair.mk ⟨x⟩).publicKey r, ?_, ?_⟩
  · unfold ElGamalCiphertext.encrypt
    rw [if_neg (by omega)]
  · exact rawEnc_decrypt hm ⟨(r : ZMod ellOrder), rfl⟩

/-- Witness for `elgamal_decrypt_encrypt` at `m = 7`, `x = 2`, `r = 3`. -/
theorem elgamal_decrypt_encrypt_witness :
    7 ≤ MAX_VOTES ∧
    ∃ ct, ElGamalCiphertext.encrypt 7 (ElGamalKeyPair.mk ⟨2⟩).publicKey 3 = some ct ∧
      (ElGamalKeyPair.mk ⟨2⟩).decrypt ct = some 7 :=
  ⟨by decide, elgamal_decrypt_encrypt 7 2 3 (by decide)⟩

/-- C2: for every non-empty list of ciphertexts that are encryptions of
messages `ms` under the same public key, with `ms.sum ≤ MAX_VOTES`,
decrypting the aggregate with the matching private key returns the sum of
the messages; moreover `aggregate` is the left fold of componentwise `add`
over the list (`reduce` seeded with the first element). -/
theorem aggregate_decrypts_to_sum (x : ZMod ellOrder) (cts : List ElGamalCiphertext)
    (ms : List Nat) (hne : cts ≠ [])
    (henc : List.Forall₂ (Encrypts (ElGamalKeyPair.mk ⟨x⟩).publicKey) cts ms)
    (hsum : ms.sum ≤ MAX_VOTES) :
    (∃ ct, ElGamalCiphertext.aggregate cts = some ct ∧
        (ElGamalKeyPair.mk ⟨x⟩).decrypt ct = some ms.sum) ∧
    ∀ (c : ElGamalCiphertext) (cs : List ElGamalCiphertext),
      ElGamalCiphertext.aggregate (c :: cs) = some (cs.foldl ElGamalCiphertext.add c) := by
  refine ⟨?_, fun c cs => rfl⟩
  match cts, henc with
  | [], _ => exact absurd rfl hne
  | c :: cs, List.Forall₂.cons hc htl =>
    refine ⟨cs.foldl ElGamalCiphertext.add c, rfl, ?_⟩
    have hraw0 := ((encrypts_iff _ _ _).mp hc).2
    have hrawtl : List.Forall₂ (RawEnc (ElGamalKeyPair.mk ⟨x⟩).publicKey.h) cs _ :=
      htl.imp fun a b hab => ((encrypts_iff _ _ _).mp hab).2
    have hfold := rawEnc_foldl hrawtl c _ hraw0
    rw [List.sum_cons]
    exact rawEnc_decrypt (by simpa using hsum) hfold

/-- Witness for `aggregate_decrypts_to_sum`: two encryptions of 1 and 0
under the key with `x = 2`, randomness 3 and 5. -/
theorem aggregate_decrypts_to_sum_witness :
    ([1, 0] : List Nat).sum ≤ MAX_VOTES ∧
    (∃ ct,
      ElGamalCiphertext.aggregate
        [ElGamalCiphertext.encryptCore 1 (ElGamalKeyPair.mk ⟨2⟩).publicKey 3,
         ElGamalCiphertext.encryptCore 0 (ElGamalKeyPair.mk ⟨2⟩).publicKey 5] = some ct ∧
      (ElGamalKeyPair.mk ⟨2⟩).decrypt ct = some ([1, 0] : List Nat).sum) ∧
    ∀ (c : ElGamalCiphertext) (cs : List ElGamalCiphertext),
      ElGamalCiphertext.aggregate (c :: cs) = some (cs.foldl ElGamalCiphertext.add c) :=
  ⟨by decide,
   aggregate_decrypts_to_sum 2 _ [1, 0] (by simp)
     (List.Forall₂.cons ⟨3, rfl⟩ (List.Forall₂.cons ⟨5, rfl⟩ List.Forall₂.nil))
     (by decide)⟩

theorem encrypts_encryptCore_iff (pk : ElGamalPublicKey) (r : Nat) (m mq : Nat)
    (hm : m ≤ MAX_VOTES) (hmq : mq ≤ MAX_VOTES) :
    Encrypts pk (ElGamalCiphertext.encryptCore m pk r) mq ↔ mq = m := by
  constructor
  · intro h
    have hraw := ((encrypts_iff _ _ _).mp h).2
    have hself : RawEnc pk.h (ElGamalCiphertext.encryptCore m pk r) m :=
      ⟨(r : ZMod ellOrder), rfl⟩
    exact rawEnc_message_eq hraw hself hmq hm
  · rintro rfl
    refine ⟨r, ?_⟩
    unfold ElGamalCiphertext.encrypt
    rw [if_neg (by omega)]

/-- C4: a vote vector produced by `Vote.cast` with selected candidate id `s`
and candidate order `order` (with `s` among the candidates and no duplicate
ids, one fresh randomness value per position) has exactly one position whose
ciphertext encrypts 1 - the position holding `s` - and every other position
encrypts 0 (and not 1). -/
theorem vote_cast_one_hot (s : String) (order : List String)
    (pk : ElGamalPublicKey) (rs : List Nat)
    (hlen : rs.length = order.length) (hmem : s ∈ order) (hnd : order.Nodup) :
    ∃ k, ∃ hk : k < (Vote.castVector s order pk rs).length,
      (∃ hko : k < order.length, order.get ⟨k, hko⟩ = s) ∧
      ∀ j (hj : j < (Vote.castVector s order pk rs).length),
        (Encrypts pk ((Vote.castVector s order pk rs).get ⟨j, hj⟩) 1 ↔ j = k) ∧
        (Encrypts pk ((Vote.castVector s order pk rs).get ⟨j, hj⟩) 0 ↔ j ≠ k) := by
  have hlength : (Vote.castVector s order pk rs).length = order.length := by
    simp [Vote.castVector, hlen]
  obtain ⟨⟨k, hko⟩, hks⟩ := List.mem_iff_get.mp hmem
  refine ⟨k, by omega, ⟨hko, hks⟩, ?_⟩
  intro j hj
  have hjo : j < order.length := by omega
  have hjr : j < rs.length := by omega
  have helem : (Vote.castVector s order pk rs).get ⟨j, hj⟩ =
      ElGamalCiphertext.encryptCore (if order.get ⟨j, hjo⟩ = s then 1 else 0) pk
        (rs.get ⟨j, hjr⟩) := by
    simp [Vote.castVector, List.get_eq_getElem, List.getElem_map, List.getElem_zip]
  have hiff : (order.get ⟨j, hjo⟩ = s) ↔ j = k := by
    constructor
    · intro hjs
      have hgg : order.get ⟨j, hjo⟩ = order.get ⟨k, hko⟩ := by rw [hjs, hks]
      have := (List.Nodup.get_inj_iff hnd).mp hgg
      exact congrArg Fin.val this
    · intro hjk
      subst hjk
      exact hks
  rw [helem]
  by_cases hcase : order.get ⟨j, hjo⟩ = s
  · rw [if_pos hcase]
    refine ⟨Iff.intro (fun _ => hiff.mp hcase)
      (fun _ => (encrypts_encryptCore_iff pk _ 1 1 (by decide) (by decide)).mpr rfl), ?_⟩
    refine iff_of_false (fun henc => ?_) (fun hne => hne (hiff.mp hcase))
    exact absurd ((encrypts_encryptCore_iff pk _ 1 0 (by decide) (by decide)).mp henc)
      (by decide)
  · rw [if_neg hcase]
    refine ⟨?_, ?_⟩
    · refine iff_of_false (fun henc => ?_) (fun hjk => hcase (hiff.mpr hjk))
      exact absurd ((encrypts_encryptCore_iff pk _ 0 1 (by decide) (by decide)).mp henc)
        (by decide)
    · exact iff_of_true ((encrypts_encryptCore_iff pk _ 0 0 (by decide) (by decide)).mpr rfl)
        (fun hjk => hcase (hiff.mpr hjk))

/-- Witness for `vote_cast_one_hot`: two candidates, "alice" selected. -/
theorem vote_cast_one_hot_witness :
    ([0, 1] : List Nat).length = (["alice", "bob"] : List String).length ∧
    "alice" ∈ (["alice", "bob"] : List String) ∧
    (["alice", "bob"] : List String).Nodup ∧
    ∃ k, ∃ hk : k < (Vote.castVector "alice" ["alice", "bob"] ⟨5⟩ [0, 1]).length,
      (∃ hko : k < (["alice", "bob"] : List String).length,
        (["alice", "bob"] : List String).get ⟨k, hko⟩ = "alice") ∧
      ∀ j (hj : j < (Vote.castVector "alice" ["alice", "bob"] ⟨5⟩ [0, 1]).length),
        (Encrypts ⟨5⟩ ((Vote.castVector "alice" ["alice", "bob"] ⟨5⟩ [0, 1]).get ⟨j, hj⟩) 1 ↔
          j = k) ∧
        (Encrypts ⟨5⟩ ((Vote.castVector "alice" ["alice", "bob"] ⟨5⟩ [0, 1]).get ⟨j, hj⟩) 0 ↔
          j ≠ k) :=
  ⟨rfl, by decide, by decide,
   vote_cast_one_hot "alice" ["alice", "bob"] ⟨5⟩ [0, 1] rfl (by decide) (by decide)⟩

/-! ## Voter eligibility Merkle tree (src/core/VoterMerkleTree.ts)

Only the data relevant to the claims is modelled: `voterData` keeps the
stored (already normalised) emails in order (the `leafHash` and `index`
fields are derived from position and from `hashEmail`, and the inner tree
nodes never influence `depth`/`size`); `treeLevels` is `this.tree.levels`,
i.e. the depth passed to the last `new MerkleTree(depth, elements)` call;
`voterMap` is the insertion-ordered JS `Map` from email to leaf index. -/

/-! Structural models of the JavaScript string built-ins used by the CSV
and email handling (`trim`, `toLowerCase`, `split`, `includes`).  The Lean
core string functions use iterator recursion that the kernel cannot reduce,
so the operations are defined directly on the character list; `trim` covers
the ASCII whitespace that can occur in CSV content, and `toLowerCase` the
ASCII range, matching the JS behaviour on the inputs involved. -/

/-- ASCII whitespace, as stripped by `String.prototype.trim`. -/
def isWsChar (c : Char) : Bool := c == ' ' || c == '\t' || c == '\r' || c == '\n'

/-- `s.trim()`. -/
def jsTrim (s : String) : String :=
  ⟨((s.data.dropWhile isWsChar).reverse.dropWhile isWsChar).reverse⟩

/-- Lowercase one character (`String.prototype.toLowerCase`, ASCII range). -/
def lowerChar (c : Char) : Char :=
  if 'A' ≤ c && c ≤ 'Z' then Char.ofNat (c.toNat + 32) else c

/-- `s.toLowerCase()`. -/
def jsToLower (s : String) : String := ⟨s.data.map lowerChar⟩

/-- Splitting accumulator for `s.split(sep)` (single-character separator,
empty segments kept, as in JS). -/
def splitCharAux (sep : Char) : List Char → List Char → List String
  | [], cur => [⟨cur.reverse⟩]
  | c :: rest, cur =>
    if c == sep then ⟨cur.reverse⟩ :: splitCharAux sep rest []
    else splitCharAux sep rest (c :: cur)

/-- `s.split(sep)` for a one-character separator. -/
def jsSplitChar (s : String) (sep : Char) : List String := splitCharAux sep s.data []

/-- Prefix test on character lists. -/
def listStarts : List Char → List Char → Bool
  | [], _ => true
  | _ :: _, [] => false
  | p :: ps, c :: cs => p == c && listStarts ps cs

/-- Substring scan for `s.includes(pat)`. -/
def includesAux (pat : List Char) : List Char → Bool
  | [] => listStarts pat []
  | c :: rest => listStarts pat (c :: rest) || includesAux pat rest

/-- `s.includes(pat)`. -/
def jsIncludes (s pat : String) : Bool := includesAux pat.data s.data

/-- Fuel-based floor of log2 (the fuel `n` always suffices). -/
def log2Aux : Nat → Nat → Nat
  | 0, _ => 0
  | fuel + 1, n => if 2 ≤ n then log2Aux fuel (n / 2) + 1 else 0

/-- Floor of the base-2 logarithm, computable by kernel reduction. -/
def floorLog2 (n : Nat) : Nat := log2Aux n n

theorem log2Aux_spec : ∀ (fuel n : Nat), n ≤ fuel → 1 ≤ n →
    2 ^ log2Aux fuel n ≤ n ∧ n < 2 ^ (log2Aux fuel n + 1) := by
  intro fuel
  induction fuel with
  | zero => intro n h1 h2; omega
  | succ fuel ih =>
    intro n hle hpos
    by_cases h2 : 2 ≤ n
    · have hhalf := ih (n / 2) (by omega) (by omega)
      simp only [log2Aux, if_pos h2]
      rw [pow_succ, pow_succ] at *
      omega
    · simp only [log2Aux, if_neg h2]
      omega

theorem floorLog2_spec (n : Nat) (h : 1 ≤ n) :
    2 ^ floorLog2 n ≤ n ∧ n < 2 ^ (floorLog2 n + 1) :=
  log2Aux_spec n n le_rfl h

namespace VoterMerkleTree

/-- `calculateDepth`: `0 voters → 1`, otherwise `Math.ceil(Math.log2(n))`,
computed exactly as `⌈log₂ n⌉` (`0` for `n = 1`, `floor(log₂(n-1)) + 1`
for `n ≥ 2`; `calculateDepth_eq_clog` below identifies this with
`Nat.clog 2 n`, the mathematical reading of the source expression). -/
def calculateDepth (numberOfVoters : Nat) : Nat :=
  if numberOfVoters = 0 then 1
  else if numberOfVoters = 1 then 0
  else floorLog2 (numberOfVoters - 1) + 1

theorem calculateDepth_eq_clog (n : Nat) :
    calculateDepth n = if n = 0 then 1 else Nat.clog 2 n := by
  unfold calculateDepth
  by_cases h0 : n = 0
  · simp [h0]
  · by_cases h1 : n = 1
    · simp [h0, h1, Nat.clog_one_right]
    · rw [if_neg h0, if_neg h1, if_neg h0]
      have hn2 : 2 ≤ n := by omega
      obtain ⟨hlo, hhi⟩ := floorLog2_spec (n - 1) (by omega)
      have hub : Nat.clog 2 n ≤ floorLog2 (n - 1) + 1 :=
        (Nat.le_pow_iff_clog_le (by norm_num)).mp (by omega)
      have hlb : floorLog2 (n - 1) < Nat.clog 2 n :=
        (Nat.pow_lt_iff_lt_clog (by norm_num)).mp (by omega)
      omega

/-! JS `Map` model: an insertion-ordered association list. `set` updates in
place when the key is present and appends otherwise; `size` is the number
of entries. -/

def mapHas (m : List (String × Nat)) (k : String) : Bool :=
  m.any fun p => p.1 == k

def mapGet (m : List (String × Nat)) (k : String) : Option Nat :=
  (m.find? fun p => p.1 == k).map Prod.snd

def mapSet (m : List (String × Nat)) (k : String) (v : Nat) : List (String × Nat) :=
  if mapHas m k then m.map fun p => if p.1 == k then (p.1, v) else p
  else m ++ [(k, v)]

def mapSize (m : List (String × Nat)) : Nat := m.length

/-- The voter map rebuilt from scratch by
`voterData.forEach((voter, index) => voterMap.set(voter.email, index))`. -/
def buildMap (emails : List String) : List (String × Nat) :=
  emails.enum.foldl (fun m p => mapSet m p.2 p.1) []

/-- Duplicate removal keeping the first occurrence
(`Array.from(new Set(rawEmails))`); fuel-based for kernel computability. -/
def dedupFirstAux : Nat → List String → List String
  | 0, _ => []
  | _, [] => []
  | fuel + 1, a :: l => a :: dedupFirstAux fuel (l.filter fun b => !(b == a))

def dedupFirst (l : List String) : List String := dedupFirstAux l.length l

/-- CSV parsing in the constructor: trim the content, split on newlines,
skip a header line whose lowercase form contains the substring "email",
take the first comma-separated field of each line, trim and lowercase it,
and keep it when nonempty and containing an `@`. -/
def parseEmails (csvContent : String) : List String :=
  let lines := jsSplitChar (jsTrim csvContent) '\n'
  let startIndex := if jsIncludes (jsToLower (lines.headD "")) "email" then 1 else 0
  ((lines.drop startIndex).map fun line =>
    jsToLower (jsTrim ((jsSplitChar line ',').headD ""))).filter
    fun email => 0 < email.length && jsIncludes email "@"

end VoterMerkleTree

/-- The modelled `VoterMerkleTree` state. -/
structure VoterMerkleTree where
  voterData : List String
  treeLevels : Nat
  voterMap : List (String × Nat)
deriving DecidableEq

namespace VoterMerkleTree

/-- `rebuildTree`: recompute the depth from the current `voterData` length,
rebuild the tree with that depth, and rebuild the voter map. -/
def rebuildTree (t : VoterMerkleTree) : VoterMerkleTree :=
  { voterData := t.voterData,
    treeLevels := calculateDepth t.voterData.length,
    voterMap := buildMap t.voterData }

/-- The constructor: parse the CSV, throw (`none`) when no valid email
remains, deduplicate keeping first occurrences, and build depth, tree and
map. -/
def create (csvContent : String) : Option VoterMerkleTree :=
  if (parseEmails csvContent).isEmpty then none
  else
    some { voterData := dedupFirst (parseEmails csvContent),
           treeLevels := calculateDepth (dedupFirst (parseEmails csvContent)).length,
           voterMap := buildMap (dedupFirst (parseEmails csvContent)) }

/-- `addVoter`: throw (`none`) when the normalised email is already in the
map, otherwise push it and rebuild. -/
def addVoter (t : VoterMerkleTree) (email : String) : Option VoterMerkleTree :=
  if mapHas t.voterMap (jsTrim (jsToLower email)) then none
  else some (rebuildTree { t with voterData := t.voterData ++ [jsTrim (jsToLower email)] })

/-- The `forEach` loop of `addVoters`: each email is checked against the map
as it was before the call (the map is rebuilt only at the end), and entries
are pushed until a duplicate throws.  Returns the success flag and the
`voterData` contents at exit. -/
def addVotersLoop (origMap : List (String × Nat)) (acc : List String) :
    List String → Bool × List String
  | [] => (true, acc)
  | e :: rest =>
    let normalized := jsTrim (jsToLower e)
    if mapHas origMap normalized then (false, acc)
    else addVotersLoop origMap (acc ++ [normalized]) rest

/-- `addVoters`: on success the tree is rebuilt once at the end; when the
loop throws, the entries already pushed remain in `voterData` while the
tree and the map keep their previous (now stale) values. -/
def addVoters (t : VoterMerkleTree) (emails : List String) : Bool × VoterMerkleTree :=
  match addVotersLoop t.voterMap t.voterData emails with
  | (true, data) => (true, rebuildTree { t with voterData := data })
  | (false, data) => (false, { t with voterData := data })

/-- `updateVoter`: throw (`none`) when the old email is absent, otherwise
replace the entry at its index and rebuild. -/
def updateVoter (t : VoterMerkleTree) (oldEmail newEmail : String) :
    Option VoterMerkleTree :=
  match mapGet t.voterMap (jsTrim (jsToLower oldEmail)) with
  | none => none
  | some index =>
    some (rebuildTree
      { t with voterData := t.voterData.set index (jsTrim (jsToLower newEmail)) })

/-- `get size()`: `this.voterMap.size`. -/
def size (t : VoterMerkleTree) : Nat := mapSize t.voterMap

/-- `get depth()`: `this.tree.levels`. -/
def depth (t : VoterMerkleTree) : Nat := t.treeLevels

/-- Tree states reachable from the constructor by successful operations
(a failed `addVoter`/`updateVoter` throws before mutating anything and so
leaves the previous reachable state in place). -/
inductive Reached : VoterMerkleTree → Prop
  | create (csv : String) (t : VoterMerkleTree) :
      VoterMerkleTree.create csv = some t → Reached t
  | addVoter (t t' : VoterMerkleTree) (email : String) :
      Reached t → VoterMerkleTree.addVoter t email = some t' → Reached t'
  | addVoters (t t' : VoterMerkleTree) (emails : List String) :
      Reached t → VoterMerkleTree.addVoters t emails = (true, t') → Reached t'
  | updateVoter (t t' : VoterMerkleTree) (oldEmail newEmail : String) :
      Reached t → VoterMerkleTree.updateVoter t oldEmail newEmail = some t' →
      Reached t'

end VoterMerkleTree

/-! ## Merkle tree invariant lemmas -/

namespace VoterMerkleTree

theorem mapHas_iff (m : List (String × Nat)) (k : String) :
    mapHas m k = true ↔ k ∈ m.map Prod.fst := by
  simp [mapHas, List.any_eq_true, List.mem_map, beq_iff_eq]

theorem mapSet_keys (m : List (String × Nat)) (k : String) (v : Nat) :
    (mapSet m k v).map Prod.fst =
      if mapHas m k then m.map Prod.fst else m.map Prod.fst ++ [k] := by
  unfold mapSet
  by_cases h : mapHas m k
  · simp only [h, if_true]
    rw [List.map_map]
    congr 1
    funext p
    simp only [Function.comp_apply]
    split <;> rfl
  · simp [h]

theorem foldl_mapSet_keys (l : List (Nat × String)) :
    ∀ m : List (String × Nat),
      ((l.foldl (fun m p => mapSet m p.2 p.1) m).map Prod.fst).toFinset =
        (m.map Prod.fst).toFinset ∪ (l.map Prod.snd).toFinset ∧
      ((m.map Prod.fst).Nodup →
        ((l.foldl (fun m p => mapSet m p.2 p.1) m).map Prod.fst).Nodup) := by
  induction l with
  | nil => intro m; simp
  | cons p rest ih =>
    intro m
    simp only [List.foldl_cons, List.map_cons, List.toFinset_cons]
    obtain ⟨ih1, ih2⟩ := ih (mapSet m p.2 p.1)
    constructor
    · rw [ih1, mapSet_keys]
      by_cases h : mapHas m p.2
      · rw [if_pos h]
        have hmem : p.2 ∈ (m.map Prod.fst).toFinset :=
          List.mem_toFinset.mpr ((mapHas_iff _ _).mp h)
        rw [Finset.union_insert, Finset.insert_eq_self.mpr (Finset.mem_union_left _ hmem)]
      · rw [if_neg h]
        ext a
        simp only [List.toFinset_append, Finset.mem_union, Finset.mem_insert,
          List.toFinset_cons, List.toFinset_nil, insert_emptyc_eq, Finset.mem_singleton,
          List.mem_toFinset]
        tauto
    · intro hnd
      apply ih2
      rw [mapSet_keys]
      by_cases h : mapHas m p.2
      · rw [if_pos h]; exact hnd
      · rw [if_neg h]
        have hnm : p.2 ∉ m.map Prod.fst := fun hm => h ((mapHas_iff _ _).mpr hm)
        simp [List.nodup_append, hnd, hnm]

theorem buildMap_size (l : List String) :
    mapSize (buildMap l) = l.toFinset.card := by
  obtain ⟨hkeys, hnd⟩ := foldl_mapSet_keys l.enum []
  have hnd2 := hnd (by simp)
  rw [List.enum_map_snd] at hkeys
  unfold mapSize buildMap
  calc (l.enum.foldl (fun m p => mapSet m p.2 p.1) []).length
      = ((l.enum.foldl (fun m p => mapSet m p.2 p.1) []).map Prod.fst).length := by
        rw [List.length_map]
    _ = ((l.enum.foldl (fun m p => mapSet m p.2 p.1) []).map Prod.fst).toFinset.card := by
        rw [List.toFinset_card_of_nodup hnd2]
    _ = l.toFinset.card := by rw [hkeys]; simp

/-- The structural invariant reestablished by the constructor and by every
completed `rebuildTree`. -/
def WellFormed (t : VoterMerkleTree) : Prop :=
  t.treeLevels = calculateDepth t.voterData.length ∧ t.voterMap = buildMap t.voterData

theorem wellFormed_mk (emails : List String) :
    WellFormed ⟨emails, calculateDepth emails.length, buildMap emails⟩ := ⟨rfl, rfl⟩

theorem rebuildTree_wellFormed (t : VoterMerkleTree) : WellFormed (rebuildTree t) :=
  wellFormed_mk t.voterData

theorem reached_wellFormed {t : VoterMerkleTree} (h : Reached t) : WellFormed t := by
  induction h with
  | create csv t heq =>
    unfold VoterMerkleTree.create at heq
    split at heq
    · cases heq
    · obtain rfl := Option.some.inj heq
      exact wellFormed_mk (dedupFirst (parseEmails csv))
  | addVoter t t' email _ heq _ =>
    unfold VoterMerkleTree.addVoter at heq
    split at heq
    · cases heq
    · obtain rfl := Option.some.inj heq
      exact rebuildTree_wellFormed _
  | addVoters t t' emails _ heq _ =>
    unfold VoterMerkleTree.addVoters at heq
    split at heq
    · injection heq with h1 h2
      rw [← h2]
      exact rebuildTree_wellFormed _
    · injection heq with h1 h2
      exact absurd h1 (by simp)
  | updateVoter t t' oldEmail newEmail _ heq _ =>
    unfold VoterMerkleTree.updateVoter at heq
    split at heq
    · cases heq
    · obtain rfl := Option.some.inj heq
      exact rebuildTree_wellFormed _

end VoterMerkleTree

/-- C7 (amended): after construction from a CSV and after every
`addVoter`, `addVoters` or `updateVoter` call that completes without
throwing, the tree depth equals `⌈log₂ n⌉` for `n ≥ 1` stored voter
entries (depth 1 when `n = 0`, depth 0 when `n = 1`), where `n` counts the
stored `voterData` entries, and `size` equals the number of unique
(already normalised) stored emails.  A failed `addVoter` or `updateVoter`
throws before mutating anything; a failed `addVoters` is excluded because
it can leave pushed entries with a stale tree
(`merkle_failed_addVoters_breaks_depth`). -/
theorem merkle_depth_size_invariant (t : VoterMerkleTree)
    (h : VoterMerkleTree.Reached t) :
    t.depth = (if t.voterData.length = 0 then 1 else Nat.clog 2 t.voterData.length) ∧
    t.size = t.voterData.toFinset.card := by
  obtain ⟨hd, hm⟩ := VoterMerkleTree.reached_wellFormed h
  constructor
  · rw [VoterMerkleTree.depth, hd, VoterMerkleTree.calculateDepth_eq_clog]
  · rw [VoterMerkleTree.size, hm, VoterMerkleTree.buildMap_size]

/-- Witness for `merkle_depth_size_invariant`: the tree built from a
two-line CSV. -/
theorem merkle_depth_size_invariant_witness :
    VoterMerkleTree.create "a@x\nb@x" = some ⟨["a@x", "b@x"], 1, [("a@x", 0), ("b@x", 1)]⟩ ∧
    (VoterMerkleTree.mk ["a@x", "b@x"] 1 [("a@x", 0), ("b@x", 1)]).depth =
      (if (["a@x", "b@x"] : List String).length = 0 then 1
       else Nat.clog 2 (["a@x", "b@x"] : List String).length) ∧
    (VoterMerkleTree.mk ["a@x", "b@x"] 1 [("a@x", 0), ("b@x", 1)]).size =
      (["a@x", "b@x"] : List String).toFinset.card := by
  have hc : VoterMerkleTree.create "a@x\nb@x" =
      some ⟨["a@x", "b@x"], 1, [("a@x", 0), ("b@x", 1)]⟩ := by decide
  exact ⟨hc, merkle_depth_size_invariant _ (VoterMerkleTree.Reached.create _ _ hc)⟩

/-- C7 counterexample: the claim as stated fails after a throwing
`addVoters` call.  Starting from the tree for the single email "z@x",
`addVoters(["b@x", "z@x"])` pushes "b@x" into `voterData` and then throws
on the duplicate "z@x", leaving 2 stored entries (2 distinct emails) while
the tree depth stays 0 (the formula demands 1) and `size` stays 1. -/
theorem merkle_failed_addVoters_breaks_depth :
    VoterMerkleTree.create "z@x" = some ⟨["z@x"], 0, [("z@x", 0)]⟩ ∧
    (VoterMerkleTree.addVoters ⟨["z@x"], 0, [("z@x", 0)]⟩ ["b@x", "z@x"]) =
      (false, ⟨["z@x", "b@x"], 0, [("z@x", 0)]⟩) ∧
    (VoterMerkleTree.mk ["z@x", "b@x"] 0 [("z@x", 0)]).depth = 0 ∧
    (if (VoterMerkleTree.mk ["z@x", "b@x"] 0 [("z@x", 0)]).voterData.length = 0 then 1
     else Nat.clog 2 (VoterMerkleTree.mk ["z@x", "b@x"] 0 [("z@x", 0)]).voterData.length) = 1 ∧
    (VoterMerkleTree.mk ["z@x", "b@x"] 0 [("z@x", 0)]).size = 1 ∧
    (VoterMerkleTree.mk ["z@x", "b@x"] 0 [("z@x", 0)]).voterData.toFinset.card = 2 := by
  have hclog : Nat.clog 2 2 = 1 := by
    have h := VoterMerkleTree.calculateDepth_eq_clog 2
    simp only [show (2 : Nat) ≠ 0 by decide, if_false] at h
    rw [← h]
    decide
  refine ⟨by decide, by decide, by decide, ?_, by decide, by decide⟩
  simpa using hclog

/-! ## Voter identity and tokens (src/core/Voter.ts)

The Semaphore `Identity`/`commitment` derivation is an external primitive;
the claims below concern only the token mechanism, so a voter is modelled
by its id, email and optional token.  The CSPRNG output
(`bytesToHex(randomBytes(32))`) and the current time are explicit
parameters; the stored token hash (a hex digest string) is modelled by the
digest integer, hex encoding being injective. -/

/-- `VoterToken { token, hash, expiresAt, used }`. -/
structure VoterToken where
  token : String
  hash : Nat
  expiresAt : Int
  used : Bool
deriving DecidableEq

/-- The `Voter` fields relevant to the token claims. -/
structure Voter where
  id : String
  email : String
  token : Option VoterToken
deriving DecidableEq

/-- `new Voter(email, electionId)`: `id = electionId + "-" + email`, no token
yet. -/
def Voter.create (email electionId : String) : Voter :=
  { id := electionId ++ "-" ++ email, email := email, token := none }

/-- `generateToken(expiryHours = 72)`: `token = id + ":" + randomPart`,
`hash = sha256(token)`, expiry `expiryHours` hours from now (clock time is
abstracted to the hour count), `used = false`.  Returns the token and the
updated voter; re-issuing replaces any previous token unconditionally. -/
def Voter.generateToken (v : Voter) (randomPart : String) (now : Int)
    (expiryHours : Int) : VoterToken × Voter :=
  let token := v.id ++ ":" ++ randomPart
  let t : VoterToken :=
    { token := token, hash := sha256Str token, expiresAt := now + expiryHours,
      used := false }
  (t, { v with token := some t })

/-- `verifyToken(token)`: false with no token issued, otherwise
`sha256(candidate) === stored hash && !used`. -/
def Voter.verifyToken (v : Voter) (token : String) : Bool :=
  match v.token with
  | none => false
  | some t => decide (sha256Str token = t.hash) && !t.used

/-- `markTokenUsed()`: flip `used` when a token exists. -/
def Voter.markTokenUsed (v : Voter) : Voter :=
  match v.token with
  | none => v
  | some t => { v with token := some { t with used := true } }

/-- `isTokenExpired()`: true with no token, otherwise `now > expiresAt`. -/
def Voter.isTokenExpired (v : Voter) (now : Int) : Bool :=
  match v.token with
  | none => true
  | some t => decide (t.expiresAt < now)

/-- C8: for a voter holding a generated token, `verifyToken(candidate)`
returns true iff SHA-256 of the candidate equals the stored token hash and
the token is not marked used; the result does not depend on the token
expiry time, which is reported separately by `isTokenExpired`. -/
theorem voter_verifyToken_spec (v : Voter) (t : VoterToken) (candidate : String)
    (ht : v.token = some t) :
    (v.verifyToken candidate = true ↔ sha256Str candidate = t.hash ∧ t.used = false) ∧
    (∀ e : Int,
      Voter.verifyToken { v with token := some { t with expiresAt := e } } candidate =
        v.verifyToken candidate) ∧
    (∀ now : Int, v.isTokenExpired now = decide (t.expiresAt < now)) := by
  refine ⟨?_, ?_, ?_⟩
  · unfold Voter.verifyToken
    rw [ht]
    simp [Bool.and_eq_true, decide_eq_true_iff, Bool.not_eq_true']
  · intro e
    unfold Voter.verifyToken
    rw [ht]
  · intro now
    unfold Voter.isTokenExpired
    rw [ht]

/-- Witness for `voter_verifyToken_spec`: a freshly generated token. -/
theorem voter_verifyToken_spec_witness :
    ((Voter.create "a@x" "e1").generateToken "cafe" 0 72).2.token =
      some ((Voter.create "a@x" "e1").generateToken "cafe" 0 72).1 ∧
    (((Voter.create "a@x" "e1").generateToken "cafe" 0 72).2.verifyToken "c" = true ↔
      sha256Str "c" = ((Voter.create "a@x" "e1").generateToken "cafe" 0 72).1.hash ∧
      ((Voter.create "a@x" "e1").generateToken "cafe" 0 72).1.used = false) ∧
    (∀ e : Int,
      Voter.verifyToken
        { ((Voter.create "a@x" "e1").generateToken "cafe" 0 72).2 with
          token := some { ((Voter.create "a@x" "e1").generateToken "cafe" 0 72).1 with
            expiresAt := e } } "c" =
        ((Voter.create "a@x" "e1").generateToken "cafe" 0 72).2.verifyToken "c") ∧
    (∀ now : Int,
      ((Voter.create "a@x" "e1").generateToken "cafe" 0 72).2.isTokenExpired now =
        decide (((Voter.create "a@x" "e1").generateToken "cafe" 0 72).1.expiresAt < now)) :=
  ⟨rfl,
   voter_verifyToken_spec _ _ "c" rfl⟩

/-- C9 counterexample: `fromPassword` is not injective on distinct
passwords: passwords form an infinite type while keypairs are finitely
many (the private key lives in `ZMod ellOrder`), so two distinct passwords
share a keypair.  No concrete collision is known - this is the pigeonhole
principle, refuting the universally quantified claim. -/
theorem fromPassword_not_injective :
    ∃ p1 p2 : String, p1 ≠ p2 ∧
      ElGamalKeyPair.fromPassword p1 = ElGamalKeyPair.fromPassword p2 := by
  have hinf : Infinite String :=
    Infinite.of_injective (fun n : Nat => String.mk (List.replicate n 'a'))
      (fun a b h => by
        have := congrArg (fun s : String => s.data.length) h
        simpa using this)
  have hfin : Finite ElGamalKeyPair := by
    have h1 : Finite ElGamalPrivateKey :=
      Finite.of_injective (fun k : ElGamalPrivateKey => k.x)
        (fun a b h => by cases a; cases b; simpa using h)
    exact Finite.of_injective (fun k : ElGamalKeyPair => k.privateKey)
      (fun a b h => by cases a; cases b; simpa using h)
  obtain ⟨p1, p2, hne, heq⟩ :=
    Finite.exists_ne_map_eq_of_infinite ElGamalKeyPair.fromPassword
  exact ⟨p1, p2, hne, heq⟩

/-- C9 (amended): `fromPassword` is deterministic - the same password
always yields the same keypair - and two passwords yield equal keypairs
exactly when their SHA-256 digests agree modulo the group order
`ellOrder`; distinct passwords whose digests differ mod `ellOrder` yield
distinct keypairs, but digest collisions exist by pigeonhole
(`fromPassword_not_injective`). -/
theorem fromPassword_deterministic_digest :
    (∀ p : String, ElGamalKeyPair.fromPassword p = ElGamalKeyPair.fromPassword p) ∧
    ∀ p1 p2 : String,
      ElGamalKeyPair.fromPassword p1 = ElGamalKeyPair.fromPassword p2 ↔
        sha256Str p1 % ellOrder = sha256Str p2 % ellOrder := by
  refine ⟨fun p => rfl, fun p1 p2 => ?_⟩
  constructor
  · intro h
    have hx : ((sha256Str p1 : ZMod ellOrder)) = (sha256Str p2 : ZMod ellOrder) :=
      congrArg (fun k : ElGamalKeyPair => k.privateKey.x) h
    exact (ZMod.natCast_eq_natCast_iff _ _ _).mp hx
  · intro h
    have hx : ((sha256Str p1 : ZMod ellOrder)) = (sha256Str p2 : ZMod ellOrder) :=
      (ZMod.natCast_eq_natCast_iff _ _ _).mpr h
    unfold ElGamalKeyPair.fromPassword
    rw [hx]

/-! ## Election orchestrator (src/core/Election.ts)

The Semaphore group is modelled by its member list (the group root and the
proof system are external); a stored ballot (`Vote` instance) carries its
ciphertext vector, candidate order, nullifier string, and the boolean
outcome of the external `verifyProof` call on its proof.  The `voters` map
is modelled by its key list (ids, JS `Map` set-semantics); timestamps are
not modelled (no claim depends on them). -/

/-- A candidate (the optional description plays no role). -/
structure Candidate where
  id : String
  name : String
deriving DecidableEq

/-- A stored ballot: the fields of a `Vote` the election reads. -/
structure Ballot where
  encryptedVotes : List ElGamalCiphertext
  candidateOrder : List String
  nullifier : String
  proofValid : Bool
deriving DecidableEq

/-- `getCandidateOrder()` (returns a copy). -/
def Ballot.getCandidateOrder (b : Ballot) : List String := b.candidateOrder

/-- `verify()`: the outcome of the external `verifyProof(this.proof)`. -/
def Ballot.verify (b : Ballot) : Bool := b.proofValid

/-- `getEncryptedVoteAt(position)`: throws (`none`) out of bounds. -/
def Ballot.getEncryptedVoteAt (b : Ballot) (position : Nat) :
    Option ElGamalCiphertext :=
  b.encryptedVotes[position]?

/-- The private `arraysEqual` helper:
`a.length === b.length && a.every((val, i) => val === b[i])`. -/
def arraysEqual (a b : List String) : Bool :=
  a.length == b.length && (List.range a.length).all fun i => a.getD i "" == b.getD i ""

/-- `status ∈ { draft, active, ended }`. -/
inductive ElectionStatus
  | draft
  | active
  | ended
deriving DecidableEq

/-- The election state. -/
structure Election where
  id : String
  title : String
  candidates : List Candidate
  keyPair : ElGamalKeyPair
  groupMembers : List Nat
  voters : List String
  votes : List Ballot
  usedNullifiers : Finset String
  eligibilityTree : Option VoterMerkleTree
  status : ElectionStatus
deriving DecidableEq

/-- JS `Map.set` on the key list: an existing key keeps its position. -/
def votersInsert (l : List String) (k : String) : List String :=
  if k ∈ l then l else l ++ [k]

/-- The `Election` constructor: derive the keypair from the trustee
password; everything else starts empty, status `draft`. -/
def Election.create (id title : String) (candidates : List Candidate)
    (trusteePassword : String) : Election :=
  { id := id, title := title, candidates := candidates,
    keyPair := ElGamalKeyPair.fromPassword trusteePassword,
    groupMembers := [], voters := [], votes := [], usedNullifiers := ∅,
    eligibilityTree := none, status := ElectionStatus.draft }

/-- `addVoters(emails)`: for each email create a voter (id
`electionId-email`), store it, and add its commitment to the group.  The
external Semaphore commitment derivation is the parameter `comm`. -/
def Election.addVoters (e : Election) (voterEmails : List String)
    (comm : String → Nat) : Election :=
  voterEmails.foldl (fun el email =>
    { el with voters := votersInsert el.voters (el.id ++ "-" ++ email),
              groupMembers := el.groupMembers ++ [comm email] }) e

/-- `uploadVoters(csv)`: build the eligibility tree (propagating its
failure), store it, then add a voter per stored email as in `addVoters`. -/
def Election.uploadVoters (e : Election) (csvContent : String)
    (comm : String → Nat) : Option Election :=
  match VoterMerkleTree.create csvContent with
  | none => none
  | some tree =>
    some (tree.voterData.foldl (fun el email =>
      { el with voters := votersInsert el.voters (el.id ++ "-" ++ email),
                groupMembers := el.groupMembers ++ [comm email] })
      { e with eligibilityTree := some tree })

/-- `start()`: requires status draft and at least one voter. -/
def Election.start (e : Election) : Option Election :=
  if e.status ≠ ElectionStatus.draft then none
  else if e.voters.length = 0 then none
  else some { e with status := ElectionStatus.active }

/-- `end()`: requires status active. -/
def Election.endElection (e : Election) : Option Election :=
  if e.status ≠ ElectionStatus.active then none
  else some { e with status := ElectionStatus.ended }

/-- The `{ success, error? }` result of `submitVote`. -/
structure SubmitResult where
  success : Bool
  error : Option String
deriving DecidableEq

/-- `submitVote(vote)`: the four checks in source order, then store the
ballot and its nullifier.  Returns the result together with the updated
election state (unchanged on every rejecting branch). -/
def Election.submitVote (e : Election) (vote : Ballot) : SubmitResult × Election :=
  if e.status ≠ ElectionStatus.active then
    ({ success := false, error := some "Election is not active" }, e)
  else if vote.nullifier ∈ e.usedNullifiers then
    ({ success := false, error := some "Voter has already voted" }, e)
  else if vote.verify = false then
    ({ success := false, error := some "Invalid vote proof" }, e)
  else if arraysEqual vote.getCandidateOrder (e.candidates.map fun c => c.id) = false then
    ({ success := false, error := some "Invalid candidate order in vote vector" }, e)
  else
    ({ success := true, error := none },
     { e with votes := e.votes ++ [vote],
              usedNullifiers := insert vote.nullifier e.usedNullifiers })

/-- The per-position tally: collect each ballot ciphertext at `pos`
(`getEncryptedVoteAt` can throw), aggregate, decrypt. -/
def Election.tallyAt (e : Election) (pos : Nat) : Option Nat := do
  let votesAtPosition ← e.votes.mapM fun vote => Ballot.getEncryptedVoteAt vote pos
  let aggregated ← ElGamalCiphertext.aggregate votesAtPosition
  e.keyPair.decrypt aggregated

/-- `tallyResults(password)`: require status ended; re-derive the keypair
from the password and compare public keys (hex comparison becomes point
comparison); zeros with no ballots; otherwise aggregate and decrypt each
position (any aggregation/decryption throw surfaces as the single
"Tally failed" error - the claims only concern the two quoted messages).
The second component is the election state, unchanged (the source method
performs no mutation). -/
def Election.tallyResults (e : Election) (trusteePassword : String) :
    Except String (List (String × Nat)) × Election :=
  if e.status ≠ ElectionStatus.ended then
    (Except.error "Cannot tally votes until election ends", e)
  else if (ElGamalKeyPair.fromPassword trusteePassword).publicKey ≠ e.keyPair.publicKey then
    (Except.error "Invalid trustee password", e)
  else if e.votes.length = 0 then
    (Except.ok (e.candidates.map fun c => (c.id, 0)), e)
  else
    match (List.range e.candidates.length).mapM (fun pos => e.tallyAt pos) with
    | none => (Except.error "Tally failed", e)
    | some totals => (Except.ok ((e.candidates.map fun c => c.id).zip totals), e)

/-- `getStats()`.  The JS float division in `turnout` is modelled as exact
rational division (no claim depends on its value). -/
structure ElectionStats where
  totalVoters : Nat
  totalVotes : Nat
  turnout : ℚ
  votesByCandidateCount : List (String × Nat)
deriving DecidableEq

def Election.getStats (e : Election) : ElectionStats :=
  { totalVoters := e.voters.length,
    totalVotes := e.usedNullifiers.card,
    turnout := if 0 < e.voters.length then
        (e.usedNullifiers.card : ℚ) / (e.voters.length : ℚ) * 100 else 0,
    votesByCandidateCount := e.candidates.map fun c => (c.id, e.votes.length) }

/-- The exported election state (`ElectionState`): the fields `import`
reads plus the recorded public key; the Semaphore group root, eligibility
root/depth and timestamps are external or unused by the claims. -/
structure ElectionState where
  id : String
  title : String
  status : ElectionStatus
  publicKey : ElGamalPublicKey
  groupMembers : List Nat
  candidates : List Candidate
deriving DecidableEq

/-- `export()`. -/
def Election.export (e : Election) : ElectionState :=
  { id := e.id, title := e.title, status := e.status,
    publicKey := e.keyPair.publicKey, groupMembers := e.groupMembers,
    candidates := e.candidates }

/-- `Election.import(state, password)`: construct a fresh election with the
supplied password, copy status, and restore the group members.  No check
of the supplied password against `state.publicKey` is performed. -/
def Election.import (state : ElectionState) (trusteePassword : String) : Election :=
  { Election.create state.id state.title state.candidates trusteePassword with
    status := state.status,
    groupMembers := state.groupMembers }

/-- Election states reachable by any operation sequence (a failing
`uploadVoters`, `start` or `endElection` throws without mutating;
`submitVote` is included for both outcomes via its returned state). -/
inductive ElectionReached : Election → Prop
  | create : ∀ id title candidates pw,
      ElectionReached (Election.create id title candidates pw)
  | addVoters : ∀ e emails comm, ElectionReached e →
      ElectionReached (e.addVoters emails comm)
  | uploadVoters : ∀ e csv comm eNext, ElectionReached e →
      e.uploadVoters csv comm = some eNext → ElectionReached eNext
  | start : ∀ e eNext, ElectionReached e → e.start = some eNext →
      ElectionReached eNext
  | endElection : ∀ e eNext, ElectionReached e → e.endElection = some eNext →
      ElectionReached eNext
  | submitVote : ∀ e vote, ElectionReached e →
      ElectionReached (e.submitVote vote).2

/-! ## Election theorems -/

theorem arraysEqual_iff (a b : List String) : arraysEqual a b = true ↔ a = b := by
  unfold arraysEqual
  rw [Bool.and_eq_true]
  simp only [beq_iff_eq, List.all_eq_true, List.mem_range]
  constructor
  · rintro ⟨hlen, hall⟩
    apply List.ext_getElem hlen
    intro i h1 h2
    have hi := hall i h1
    rwa [List.getD_eq_getElem a "" h1, List.getD_eq_getElem b "" h2] at hi
  · rintro rfl
    exact ⟨rfl, fun i hi => rfl⟩

/-- C1: `submitVote` applies its checks in source order with the quoted
messages - inactive election, reused nullifier, failed proof verification,
candidate-order mismatch - and on the accepting path appends the ballot,
inserts its nullifier and reports success; every rejecting branch leaves
the election state unchanged (the returned state is the input state). -/
theorem submitVote_spec (e : Election) (vote : Ballot) :
    (e.status ≠ ElectionStatus.active →
      e.submitVote vote =
        ({ success := false, error := some "Election is not active" }, e)) ∧
    (e.status = ElectionStatus.active → vote.nullifier ∈ e.usedNullifiers →
      e.submitVote vote =
        ({ success := false, error := some "Voter has already voted" }, e)) ∧
    (e.status = ElectionStatus.active → vote.nullifier ∉ e.usedNullifiers →
      vote.verify = false →
      e.submitVote vote =
        ({ success := false, error := some "Invalid vote proof" }, e)) ∧
    (e.status = ElectionStatus.active → vote.nullifier ∉ e.usedNullifiers →
      vote.verify = true →
      vote.getCandidateOrder ≠ e.candidates.map (fun c => c.id) →
      e.submitVote vote =
        ({ success := false, error := some "Invalid candidate order in vote vector" }, e)) ∧
    (e.status = ElectionStatus.active → vote.nullifier ∉ e.usedNullifiers →
      vote.verify = true →
      vote.getCandidateOrder = e.candidates.map (fun c => c.id) →
      e.submitVote vote =
        ({ success := true, error := none },
         { e with votes := e.votes ++ [vote],
                  usedNullifiers := insert vote.nullifier e.usedNullifiers })) := by
  refine ⟨?_, ?_, ?_, ?_, ?_⟩
  · intro h1
    unfold Election.submitVote
    rw [if_pos h1]
  · intro h1 h2
    unfold Election.submitVote
    rw [if_neg (by simp [h1]), if_pos h2]
  · intro h1 h2 h3
    unfold Election.submitVote
    rw [if_neg (by simp [h1]), if_neg h2, if_pos h3]
  · intro h1 h2 h3 h4
    have h4b : arraysEqual vote.getCandidateOrder (e.candidates.map fun c => c.id) = false := by
      rw [← Bool.not_eq_true]
      exact fun hc => h4 ((arraysEqual_iff _ _).mp hc)
    unfold Election.submitVote
    rw [if_neg (by simp [h1]), if_neg h2, if_neg (by simp [h3]), if_pos h4b]
  · intro h1 h2 h3 h4
    have h4b : ¬(arraysEqual vote.getCandidateOrder (e.candidates.map fun c => c.id) = false) := by
      rw [(arraysEqual_iff _ _).mpr h4]
      simp
    unfold Election.submitVote
    rw [if_neg (by simp [h1]), if_neg h2, if_neg (by simp [h3]), if_neg h4b]

/-- A reachable election state used by the witnesses: one candidate, one
enrolled voter, voting open. -/
def electionExample : Election :=
  { id := "e", title := "t", candidates := [{ id := "alice", name := "Alice" }],
    keyPair := ⟨⟨1⟩⟩, groupMembers := [], voters := ["v"], votes := [],
    usedNullifiers := ∅, eligibilityTree := none,
    status := ElectionStatus.active }

/-- A well-formed ballot for `electionExample`. -/
def ballotExample : Ballot :=
  { encryptedVotes := [ElGamalCiphertext.encryptCore 1 ⟨1⟩ 3],
    candidateOrder := ["alice"], nullifier := "n1", proofValid := true }

/-- Witness for `submitVote_spec`: the accepting branch at a concrete
active election and valid ballot. -/
theorem submitVote_spec_witness :
    electionExample.status = ElectionStatus.active ∧
    ballotExample.nullifier ∉ electionExample.usedNullifiers ∧
    ballotExample.verify = true ∧
    ballotExample.getCandidateOrder = electionExample.candidates.map (fun c => c.id) ∧
    electionExample.submitVote ballotExample =
      ({ success := true, error := none },
       { electionExample with
         votes := electionExample.votes ++ [ballotExample],
         usedNullifiers := insert ballotExample.nullifier electionExample.usedNullifiers }) :=
  ⟨rfl, by simp [electionExample, ballotExample], rfl, rfl,
   (submitVote_spec electionExample ballotExample).2.2.2.2 rfl
     (by simp [electionExample, ballotExample]) rfl rfl⟩

/-- C5: `tallyResults` fails with "Cannot tally votes until election ends"
whenever the status is not ended; with status ended it fails with
"Invalid trustee password" exactly when the public key derived from the
supplied password differs from the stored one; and the election state is
never mutated. -/
theorem tallyResults_gating (e : Election) (password : String) :
    (e.status ≠ ElectionStatus.ended →
      e.tallyResults password =
        (Except.error "Cannot tally votes until election ends", e)) ∧
    (e.status = ElectionStatus.ended →
      ((e.tallyResults password).1 = Except.error "Invalid trustee password" ↔
        (ElGamalKeyPair.fromPassword password).publicKey ≠ e.keyPair.publicKey)) ∧
    (e.tallyResults password).2 = e := by
  refine ⟨?_, ?_, ?_⟩
  · intro h1
    unfold Election.tallyResults
    rw [if_pos h1]
  · intro hend
    unfold Election.tallyResults
    rw [if_neg (by simp [hend])]
    by_cases hpk : (ElGamalKeyPair.fromPassword password).publicKey ≠ e.keyPair.publicKey
    · rw [if_pos hpk]
      exact iff_of_true rfl hpk
    · rw [if_neg hpk]
      refine iff_of_false ?_ hpk
      by_cases hv : e.votes.length = 0
      · rw [if_pos hv]
        intro hc
        cases hc
      · rw [if_neg hv]
        split
        · intro hc
          have := Except.error.inj hc
          exact absurd this (by decide)
        · intro hc
          cases hc
  · unfold Election.tallyResults
    split
    · rfl
    · split
      · rfl
      · split
        · rfl
        · split <;> rfl

/-- An ended election used by the C5 witness. -/
def electionEndedExample : Election :=
  { electionExample with status := ElectionStatus.ended }

/-- Witness for `tallyResults_gating`: the password-gate clause at a
concrete ended election. -/
theorem tallyResults_gating_witness :
    electionEndedExample.status = ElectionStatus.ended ∧
    ((electionEndedExample.tallyResults "pw").1 =
        Except.error "Invalid trustee password" ↔
      (ElGamalKeyPair.fromPassword "pw").publicKey ≠
        electionEndedExample.keyPair.publicKey) ∧
    (electionEndedExample.tallyResults "pw").2 = electionEndedExample :=
  ⟨rfl, (tallyResults_gating electionEndedExample "pw").2.1 rfl,
   (tallyResults_gating electionEndedExample "pw").2.2⟩

/-- C6 (code bug): `Election.import` performs no password validation.  It
always returns an election whose keypair is derived from the supplied
password - for every state and password - and, at the concrete failing
input (a state exported from an election created with password
"correct-pw", imported with "wrong-pw"), it silently constructs an
election whose public key differs from the one recorded in the state,
instead of surfacing an error as specified. -/
theorem election_import_no_password_check :
    (∀ (state : ElectionState) (password : String),
      (Election.import state password).keyPair = ElGamalKeyPair.fromPassword password) ∧
    ((Election.import (Election.export (Election.create "e1" "T" [] "correct-pw"))
        "wrong-pw").keyPair.publicKey =
      (Election.export (Election.create "e1" "T" [] "correct-pw")).publicKey) = False :=
  ⟨fun state password => rfl, eq_false (by set_option maxRecDepth 100000 in decide)⟩

theorem foldAdd_preserves (comm : String → Nat) (emails : List String) :
    ∀ e : Election,
      ((emails.foldl (fun el email =>
          { el with voters := votersInsert el.voters (el.id ++ "-" ++ email),
                    groupMembers := el.groupMembers ++ [comm email] }) e).votes = e.votes ∧
       (emails.foldl (fun el email =>
          { el with voters := votersInsert el.voters (el.id ++ "-" ++ email),
                    groupMembers := el.groupMembers ++ [comm email] }) e).usedNullifiers =
         e.usedNullifiers) := by
  induction emails with
  | nil => intro e; exact ⟨rfl, rfl⟩
  | cons a rest ih =>
    intro e
    simp only [List.foldl_cons]
    exact ⟨(ih _).1, (ih _).2⟩

theorem submitVote_state (e : Election) (vote : Ballot) :
    (e.submitVote vote).2 = e ∨
    (vote.nullifier ∉ e.usedNullifiers ∧
     (e.submitVote vote).2 =
       { e with votes := e.votes ++ [vote],
                usedNullifiers := insert vote.nullifier e.usedNullifiers }) := by
  unfold Election.submitVote
  split
  · left; rfl
  · split
    · left; rfl
    · split
      · left; rfl
      · split
        · left; rfl
        · right
          rename_i hstatus hnull hverify horder
          exact ⟨hnull, rfl⟩

/-- C10: in every reachable election state the number of stored ballots
equals the number of used nullifiers, and `getStats().totalVotes` equals
the number of ballots the tally will aggregate. -/
theorem election_votes_nullifiers (e : Election) (h : ElectionReached e) :
    e.votes.length = e.usedNullifiers.card ∧
    (e.getStats).totalVotes = e.votes.length := by
  have key : e.votes.length = e.usedNullifiers.card := by
    induction h with
    | create id title candidates pw => simp [Election.create]
    | addVoters e emails comm _ ih =>
      obtain ⟨hv, hn⟩ := foldAdd_preserves comm emails e
      unfold Election.addVoters
      rw [hv, hn]
      exact ih
    | uploadVoters e csv comm eNext _ heq ih =>
      unfold Election.uploadVoters at heq
      split at heq
      · cases heq
      · obtain rfl := Option.some.inj heq
        rename_i tree _
        obtain ⟨hv, hn⟩ :=
          foldAdd_preserves comm tree.voterData { e with eligibilityTree := some tree }
        rw [hv, hn]
        exact ih
    | start e eNext _ heq ih =>
      unfold Election.start at heq
      split at heq
      · cases heq
      · split at heq
        · cases heq
        · obtain rfl := Option.some.inj heq
          exact ih
    | endElection e eNext _ heq ih =>
      unfold Election.endElection at heq
      split at heq
      · cases heq
      · obtain rfl := Option.some.inj heq
        exact ih
    | submitVote e vote _ ih =>
      rcases submitVote_state e vote with hs | ⟨hnm, hs⟩
      · rw [hs]; exact ih
      · rw [hs]
        simp [List.length_append, Finset.card_insert_of_not_mem hnm, ih]
  exact ⟨key, key.symm⟩

/-- Witness for `election_votes_nullifiers`: a freshly constructed
election. -/
theorem election_votes_nullifiers_witness :
    ElectionReached (Election.create "e" "t" [] "pw") ∧
    (Election.create "e" "t" [] "pw").votes.length =
      (Election.create "e" "t" [] "pw").usedNullifiers.card ∧
    ((Election.create "e" "t" [] "pw").getStats).totalVotes =
      (Election.create "e" "t" [] "pw").votes.length :=
  ⟨ElectionReached.create "e" "t" [] "pw",
   election_votes_nullifiers _ (ElectionReached.create "e" "t" [] "pw")⟩
